import Mathlib

/-!
# OpenMP tutorial programs: embedding and verified properties

Shallow embedding of `bug_hunt_solution.c` (sequence builder, reducer, report,
argument validation), of `bug_hunt.c` run by a single thread, of the sum-to-N
loop of `parallel_for.c` / `scheduling.c`, and of the manual range partitioning
of `reduction.c` / `scope.c`.

Machine integers are natural numbers reduced explicitly: `unsigned int` modulo
`2^32`, `unsigned long` modulo `2^64` (LP64).  The heap block returned by
`malloc` is a list of cells; every read and write is bounds checked and an
access outside the block is the fault `Fault.outOfBounds`.  Loops carry a fuel
counter so that they are structurally recursive; running out of fuel is the
separate fault `Fault.outOfFuel`.
-/

namespace Machine

/-! ## Machine arithmetic -/

/-- Number of values of an `unsigned int`. -/
def UINT_MOD : Nat := 2 ^ 32

/-- Number of values of an `unsigned long`. -/
def ULONG_MOD : Nat := 2 ^ 64

/-- Largest `unsigned long`, from `<limits.h>`. -/
def ULONG_MAX : Nat := 2 ^ 64 - 1

/-- Addition of two `unsigned int` values. -/
def uadd32 (x y : Nat) : Nat := (x + y) % UINT_MOD

/-- Subtraction of two `unsigned int` values (wraps below zero). -/
def usub32 (x y : Nat) : Nat := (x + UINT_MOD - y % UINT_MOD) % UINT_MOD

/-- Addition of two `unsigned long` values. -/
def uadd64 (x y : Nat) : Nat := (x + y) % ULONG_MOD

/-- Conversion of an `int` to `unsigned int`, as in `unsigned int n = atoi(..)`. -/
def toUInt (z : Int) : Nat := (z % (UINT_MOD : Int)).toNat

/-! ## Checked memory -/

/-- Ways in which a run of the model can fail to produce a result. -/
inductive Fault where
  | outOfBounds
  | outOfFuel
  deriving DecidableEq, Repr

/-- Read of `array[i]`. -/
def load (a : List Nat) (i : Nat) : Except Fault Nat :=
  match a[i]? with
  | some v => .ok v
  | none => .error .outOfBounds

/-- Write `array[i] = v`. -/
def store (a : List Nat) (i v : Nat) : Except Fault (List Nat) :=
  if i < a.length then .ok (a.set i v) else .error .outOfBounds

/-- The block `malloc(n * sizeof(unsigned long))`: `n` cells whose initial
contents `junk` are arbitrary.  Allocation is assumed to succeed. -/
def malloc (n : Nat) (junk : Nat → Nat) : List Nat :=
  (List.range n).map junk

end Machine

namespace BugHuntSolution

open Machine

/-! ## Sequence builder (`bug_hunt_solution.c`, lines 48-51) -/

/-- The loop `for (unsigned int i = 1; i < n; i++) array[i] = array[i-1] + (i+1);`
started at loop variable `i`. -/
def buildLoop (n : Nat) : Nat → Nat → List Nat → Except Fault (List Nat)
  | 0, _, _ => .error .outOfFuel
  | fuel + 1, i, a =>
    if i < n then
      match load a (usub32 i 1) with
      | .error e => .error e
      | .ok prev =>
        match store a i (uadd64 prev (uadd32 i 1)) with
        | .error e => .error e
        | .ok a1 => buildLoop n fuel (uadd32 i 1) a1
    else .ok a

/-- Lines 48-51: `array[0] = 1;` followed by the recurrence loop. -/
def build (n : Nat) (mem : List Nat) : Except Fault (List Nat) :=
  match store mem 0 1 with
  | .error e => .error e
  | .ok a => buildLoop n n 1 a

/-- The closed form `(i+1)(i+2)/2` of element `i`. -/
def tri (i : Nat) : Nat := (i + 1) * (i + 2) / 2


/-! ## Reducer (`bug_hunt_solution.c`, lines 53-96) -/

/-- The four scalars `sum`, `min_val`, `max_val` (`unsigned long`) and
`even_count` (`unsigned int`). -/
structure Tally where
  sum : Nat
  min_val : Nat
  max_val : Nat
  even_count : Nat
  deriving DecidableEq, Repr

/-- Lines 53-56: the values of the four scalars before the loop. -/
def initial : Tally :=
  { sum := 0, min_val := ULONG_MAX, max_val := 0, even_count := 0 }

/-- The private copies a worker starts from: the OpenMP initialiser of each
reduction operator (`+`: 0, `min`: largest value of the type, `max`: least
value of the type). -/
def identity : Tally :=
  { sum := 0, min_val := ULONG_MAX, max_val := 0, even_count := 0 }

/-- Lines 81-95: one iteration of the loop body on the tally `t`. -/
def loopBody (a : List Nat) (i : Nat) (t : Tally) : Except Fault Tally :=
  match load a i with
  | .error e => .error e
  | .ok temp =>
    .ok { sum := uadd64 t.sum temp,
          min_val := if temp < t.min_val then temp else t.min_val,
          max_val := if temp > t.max_val then temp else t.max_val,
          even_count := if temp % 2 = 0 then uadd32 t.even_count 1 else t.even_count }

/-- The loop `for (unsigned int i = ..; i < hi; i++) { body }` started at loop
variable `i` with tally `t`. -/
def scanLoop (a : List Nat) (hi : Nat) : Nat → Nat → Tally → Except Fault Tally
  | 0, _, _ => .error .outOfFuel
  | fuel + 1, i, t =>
    if i < hi then
      match loopBody a i t with
      | .error e => .error e
      | .ok t1 => scanLoop a hi fuel (uadd32 i 1) t1
    else .ok t

/-- The loop of lines 80-96 run by a single thread over the whole index range
`[0, n)`, directly on the four scalars. -/
def reduceSerial (a : List Nat) (n : Nat) : Except Fault Tally :=
  scanLoop a n (n + 1) 0 initial

/-- The combiner of the clauses `reduction(+ : sum, even_count)`,
`reduction(min : min_val)`, `reduction(max : max_val)`: merges the private
tally `priv` into `out`. -/
def combine (out priv : Tally) : Tally :=
  { sum := uadd64 out.sum priv.sum,
    min_val := if priv.min_val < out.min_val then priv.min_val else out.min_val,
    max_val := if priv.max_val > out.max_val then priv.max_val else out.max_val,
    even_count := uadd32 out.even_count priv.even_count }

/-- The work-shared loop: every sub-range `(lo, hi)` of the schedule is scanned
from a private tally, which is then merged into the shared one.  The order of
the list is the order in which the merges happen. -/
def reduceChunks (a : List Nat) : List (Nat × Nat) → Tally → Except Fault Tally
  | [], out => .ok out
  | (lo, hi) :: rest, out =>
    match scanLoop a hi (hi - lo + 1) lo identity with
    | .error e => .error e
    | .ok priv => reduceChunks a rest (combine out priv)

/-- Lines 53-96 under the schedule `chunks`. -/
def reduceParallel (a : List Nat) (chunks : List (Nat × Nat)) : Except Fault Tally :=
  reduceChunks a chunks initial

/-- Indices of the sub-range `[lo, hi)`. -/
def chunkIndices (c : Nat × Nat) : List Nat := List.range' c.1 (c.2 - c.1)

/-- The sub-ranges are pairwise disjoint and cover `[0, n)`: listed one after
the other they are a rearrangement of `0, 1, .., n-1`. -/
def IsSplit (n : Nat) (chunks : List (Nat × Nat)) : Prop :=
  List.Perm (chunks.map chunkIndices).flatten (List.range n)

instance (n : Nat) (chunks : List (Nat × Nat)) : Decidable (IsSplit n chunks) := by
  unfold IsSplit; infer_instance

/-! ## Report and `main` (`bug_hunt_solution.c`, lines 23-116) -/

/-- The values printed by lines 100-112 (the average apart). -/
structure Report where
  first6 : List Nat
  lastIndex : Nat
  last : Nat
  sum : Nat
  min_val : Nat
  max_val : Nat
  even_count : Nat
  deriving DecidableEq, Repr

/-- What a run prints. -/
inductive Output where
  | usage
  | pleaseProvide
  | report (r : Report)
  deriving DecidableEq, Repr

/-- Exit statuses of `<stdlib.h>`. -/
inductive Status where
  | EXIT_SUCCESS
  | EXIT_FAILURE
  deriving DecidableEq, Repr

/-- Lines 100-107: the reads `array[0]` .. `array[5]` and `array[n - 1]`. -/
def readReport (a : List Nat) (n : Nat) (t : Tally) : Except Fault Report :=
  match load a 0, load a 1, load a 2, load a 3, load a 4, load a 5, load a (usub32 n 1) with
  | .ok x0, .ok x1, .ok x2, .ok x3, .ok x4, .ok x5, .ok xl =>
    .ok { first6 := [x0, x1, x2, x3, x4, x5], lastIndex := usub32 n 1, last := xl,
          sum := t.sum, min_val := t.min_val, max_val := t.max_val,
          even_count := t.even_count }
  | _, _, _, _, _, _, _ => .error .outOfBounds

/-- Lines 37-112 for the `unsigned int` value `n`: allocate, build, reduce under
the schedule `chunks`, read the reported cells. -/
def compute (n : Nat) (chunks : List (Nat × Nat)) (junk : Nat → Nat) : Except Fault Report :=
  match build n (malloc n junk) with
  | .error e => .error e
  | .ok a =>
    match reduceParallel a chunks with
    | .error e => .error e
    | .ok t => readReport a n t

/-- The program: `argc` is the argument count, `atoi1` the `int` that
`atoi(argv[1])` returns; `chunks` is the schedule the runtime picks for
`thread_count` workers and `junk` the initial contents of the block. -/
def main (argc : Int) (atoi1 : Int) (chunks : List (Nat × Nat)) (junk : Nat → Nat) :
    Except Fault (Status × Output) :=
  if argc ≠ 3 then .ok (.EXIT_FAILURE, .usage)
  else
    let n := toUInt atoi1
    if n < 6 then .ok (.EXIT_FAILURE, .pleaseProvide)
    else
      match compute n chunks junk with
      | .error e => .error e
      | .ok r => .ok (.EXIT_SUCCESS, .report r)

end BugHuntSolution

namespace ParallelFor

open Machine

/-! ## Sum from 1 to `upper_bound` (`parallel_for.c`, `scheduling.c`) -/

/-- The loop `for (unsigned long i = 1; i <= upper_bound; i++) global_sum += i;`
started at loop variable `i` with accumulator `s`. -/
def sumLoop (upper_bound : Nat) : Nat → Nat → Nat → Except Fault Nat
  | 0, _, _ => .error .outOfFuel
  | fuel + 1, i, s =>
    if i ≤ upper_bound then sumLoop upper_bound fuel (uadd64 i 1) (uadd64 s i)
    else .ok s

/-- The value of `global_sum` after the loop. -/
def global_sum (upper_bound : Nat) : Except Fault Nat :=
  sumLoop upper_bound (upper_bound + 1) 1 0

/-- The check value `(upper_bound * (upper_bound + 1)) / 2` in `unsigned long`
arithmetic. -/
def expected_sum (upper_bound : Nat) : Nat :=
  ((upper_bound * uadd64 upper_bound 1) % ULONG_MOD) / 2

/-- The comparison `global_sum == expected_sum` that selects the printed
verdict. -/
def resultIsCorrect (upper_bound : Nat) : Except Fault Bool :=
  match global_sum upper_bound with
  | .error e => .error e
  | .ok s => .ok (decide (s = expected_sum upper_bound))

end ParallelFor


namespace BugHuntSolution

open Machine

/-! ## Reference quantities used in the statements -/

/-- Effect of the loop body on the tally when the cell read holds `temp`. -/
def step (t : Tally) (temp : Nat) : Tally :=
  { sum := uadd64 t.sum temp,
    min_val := if temp < t.min_val then temp else t.min_val,
    max_val := if temp > t.max_val then temp else t.max_val,
    even_count := if temp % 2 = 0 then uadd32 t.even_count 1 else t.even_count }

/-- Contents of the cells with the given indices. -/
def valuesAt (a : List Nat) (idx : List Nat) : List Nat :=
  idx.map (fun i => a.getD i 0)

/-- A tally whose fields are values of their C types. -/
def Tally.InRange (t : Tally) : Prop :=
  t.sum < 2 ^ 64 ∧ t.min_val ≤ ULONG_MAX ∧ t.even_count < 2 ^ 32

/-- The mathematical total of the first `n` elements. -/
def exactTotal (n : Nat) : Nat := ((List.range n).map tri).sum

/-- Number of indices `i` in `[0, n)` whose element `(i+1)(i+2)/2` is even. -/
def evenTriCount (n : Nat) : Nat := (List.range n).countP (fun i => tri i % 2 = 0)

end BugHuntSolution

namespace Machine

/-- Multiplication of two `unsigned long` values. -/
def umul64 (x y : Nat) : Nat := (x * y) % ULONG_MOD

end Machine

namespace BugHunt

open Machine

/-! ## `bug_hunt.c` with the pragmas ignored (one thread, iterations in order) -/

/-- Lines 73-75: the loop `for (unsigned int i = 1; i < n; i++)
array[i] = array[i - 1] + (i + 1);` started at loop variable `i`. -/
def buildLoop (n : Nat) : Nat → Nat → List Nat → Except Fault (List Nat)
  | 0, _, _ => .error .outOfFuel
  | fuel + 1, i, a =>
    if i < n then
      match load a (usub32 i 1) with
      | .error e => .error e
      | .ok prev =>
        match store a i (uadd64 prev (uadd32 i 1)) with
        | .error e => .error e
        | .ok a1 => buildLoop n fuel (uadd32 i 1) a1
    else .ok a

/-- Lines 71-75: `array[0] = 1;` and the loop. -/
def build (n : Nat) (mem : List Nat) : Except Fault (List Nat) :=
  match store mem 0 1 with
  | .error e => .error e
  | .ok a => buildLoop n n 1 a

/-- Lines 85-101: the loop over `i = 0 .. n-1`, updating `sum`, `min_val`,
`max_val` and `even_count` in place, started at loop variable `i`. -/
def scanLoop (a : List Nat) (n : Nat) :
    Nat → Nat → BugHuntSolution.Tally → Except Fault BugHuntSolution.Tally
  | 0, _, _ => .error .outOfFuel
  | fuel + 1, i, t =>
    if i < n then
      match load a i with
      | .error e => .error e
      | .ok temp =>
        scanLoop a n fuel (uadd32 i 1)
          { sum := uadd64 t.sum temp,
            min_val := if temp < t.min_val then temp else t.min_val,
            max_val := if temp > t.max_val then temp else t.max_val,
            even_count := if temp % 2 = 0 then uadd32 t.even_count 1 else t.even_count }
    else .ok t

/-- Lines 77-101: the four scalars are initialised and the loop runs. -/
def reduce (a : List Nat) (n : Nat) : Except Fault BugHuntSolution.Tally :=
  scanLoop a n (n + 1) 0 { sum := 0, min_val := ULONG_MAX, max_val := 0, even_count := 0 }

/-- Lines 105-112: the reads `array[0]` .. `array[5]` and `array[n - 1]`. -/
def readReport (a : List Nat) (n : Nat) (t : BugHuntSolution.Tally) :
    Except Fault BugHuntSolution.Report :=
  match load a 0, load a 1, load a 2, load a 3, load a 4, load a 5, load a (usub32 n 1) with
  | .ok x0, .ok x1, .ok x2, .ok x3, .ok x4, .ok x5, .ok xl =>
    .ok { first6 := [x0, x1, x2, x3, x4, x5], lastIndex := usub32 n 1, last := xl,
          sum := t.sum, min_val := t.min_val, max_val := t.max_val,
          even_count := t.even_count }
  | _, _, _, _, _, _, _ => .error .outOfBounds

/-- Lines 69-117 for the `unsigned int` value `n`. -/
def compute (n : Nat) (junk : Nat → Nat) : Except Fault BugHuntSolution.Report :=
  match build n (malloc n junk) with
  | .error e => .error e
  | .ok a =>
    match reduce a n with
    | .error e => .error e
    | .ok t => readReport a n t

/-- The program: `argc` is the argument count, `atoi1` the `int` that
`atoi(argv[1])` returns, `junk` the initial contents of the block. -/
def main (argc : Int) (atoi1 : Int) (junk : Nat → Nat) :
    Except Fault (BugHuntSolution.Status × BugHuntSolution.Output) :=
  if argc ≠ 3 then .ok (.EXIT_FAILURE, .usage)
  else
    let n := toUInt atoi1
    if n < 6 then .ok (.EXIT_FAILURE, .pleaseProvide)
    else
      match compute n junk with
      | .error e => .error e
      | .ok r => .ok (.EXIT_SUCCESS, .report r)

end BugHunt

namespace Reduction

open Machine

/-! ## Manual range partitioning (`reduction.c`, lines 45-61) -/

/-- Line 50: `(upper_bound * tid) / thread_count + 1`. -/
def local_start (upper_bound tid thread_count : Nat) : Nat :=
  uadd64 (umul64 upper_bound tid / thread_count) 1

/-- Line 51: `(upper_bound * (tid + 1)) / thread_count`, with `tid + 1` an
`unsigned int`. -/
def local_end (upper_bound tid thread_count : Nat) : Nat :=
  umul64 upper_bound (uadd32 tid 1) / thread_count

/-- Lines 55-60: the loop `for (unsigned long i = local_start; i <= local_end;
i++) global_sum += i;` on the thread's private copy `s`, started at `i`. -/
def threadLoop (hi : Nat) : Nat → Nat → Nat → Except Fault Nat
  | 0, _, _ => .error .outOfFuel
  | fuel + 1, i, s =>
    if i ≤ hi then threadLoop hi fuel (uadd64 i 1) (uadd64 s i)
    else .ok s

/-- The private copy of `global_sum` of thread `tid` at the end of the region;
the copy starts at 0, the initialiser of `+`. -/
def threadSum (upper_bound tid thread_count : Nat) : Except Fault Nat :=
  threadLoop (local_end upper_bound tid thread_count)
    (local_end upper_bound tid thread_count - local_start upper_bound tid thread_count + 2)
    (local_start upper_bound tid thread_count) 0

/-- The `reduction(+ : global_sum)` merge: the threads listed in `order` add
their private copies to the shared variable `g` one after the other. -/
def region (upper_bound thread_count : Nat) : List Nat → Nat → Except Fault Nat
  | [], g => .ok g
  | tid :: rest, g =>
    match threadSum upper_bound tid thread_count with
    | .error e => .error e
    | .ok s => region upper_bound thread_count rest (uadd64 g s)

/-- The value of `global_sum` after the parallel region (line 43: it starts
at 0). -/
def global_sum (upper_bound thread_count : Nat) (order : List Nat) : Except Fault Nat :=
  region upper_bound thread_count order 0

end Reduction

namespace Scope

open Machine

/-! ## Manual range partitioning (`scope.c`, lines 50-77) -/

/-- Line 60: `(upper_bound * tid) / num_threads + 1`. -/
def local_start (upper_bound tid num_threads : Nat) : Nat :=
  uadd64 (umul64 upper_bound tid / num_threads) 1

/-- Line 61: `(upper_bound * (tid + 1)) / num_threads`, with `tid + 1` an
`unsigned int`. -/
def local_end (upper_bound tid num_threads : Nat) : Nat :=
  umul64 upper_bound (uadd32 tid 1) / num_threads

/-- Lines 66-68: the loop `for (unsigned long i = local_start; i <= local_end;
i++) local_sum += i;` started at `i` with `local_sum = s`. -/
def localLoop (hi : Nat) : Nat → Nat → Nat → Except Fault Nat
  | 0, _, _ => .error .outOfFuel
  | fuel + 1, i, s =>
    if i ≤ hi then localLoop hi fuel (uadd64 i 1) (uadd64 s i)
    else .ok s

/-- Lines 65-68: the private `local_sum` of thread `tid` after its loop. -/
def local_sum (upper_bound tid num_threads : Nat) : Except Fault Nat :=
  localLoop (local_end upper_bound tid num_threads)
    (local_end upper_bound tid num_threads - local_start upper_bound tid num_threads + 2)
    (local_start upper_bound tid num_threads) 0

/-- Lines 73-76: the threads enter the critical section in the order `order`
and each runs `global_sum += local_sum;` on the shared variable `g`. -/
def region (upper_bound num_threads : Nat) : List Nat → Nat → Except Fault Nat
  | [], g => .ok g
  | tid :: rest, g =>
    match local_sum upper_bound tid num_threads with
    | .error e => .error e
    | .ok s => region upper_bound num_threads rest (uadd64 g s)

/-- The value of `global_sum` after the parallel region (line 40: it starts
at 0). -/
def global_sum (upper_bound num_threads : Nat) (order : List Nat) : Except Fault Nat :=
  region upper_bound num_threads order 0

end Scope

namespace Reduction

/-! ## Reference quantities used in the statements -/

/-- The integers of the inclusive range `[local_start, local_end]` of thread
`tid`, in increasing order (none when `local_start > local_end`). -/
def threadRange (upper_bound tid thread_count : Nat) : List Nat :=
  List.range' (local_start upper_bound tid thread_count)
    (local_end upper_bound tid thread_count + 1 - local_start upper_bound tid thread_count)

end Reduction

/-! # Verified properties -/

namespace Machine

theorem uadd32_small {x y : Nat} (h : x + y < 2 ^ 32) : uadd32 x y = x + y := by
  unfold uadd32 UINT_MOD
  exact Nat.mod_eq_of_lt h

theorem usub32_one {x : Nat} (h1 : 1 ≤ x) (h : x < 2 ^ 32) : usub32 x 1 = x - 1 := by
  unfold usub32 UINT_MOD
  omega

theorem uadd64_small {x y : Nat} (h : x + y < 2 ^ 64) : uadd64 x y = x + y := by
  unfold uadd64 ULONG_MOD
  exact Nat.mod_eq_of_lt h

theorem load_of_getElem? {a : List Nat} {i v : Nat} (h : a[i]? = some v) :
    load a i = .ok v := by
  simp [load, h]

theorem store_of_lt {a : List Nat} {i : Nat} (v : Nat) (h : i < a.length) :
    store a i v = .ok (a.set i v) := by
  simp [store, h]

theorem malloc_length (n : Nat) (junk : Nat → Nat) : (malloc n junk).length = n := by
  simp [malloc]

end Machine

namespace BugHuntSolution

open Machine

/-! ## The closed form -/

theorem tri_succ (k : Nat) : tri (k + 1) = tri k + (k + 2) := by
  unfold tri
  have h : (k + 1 + 1) * (k + 1 + 2) = (k + 1) * (k + 2) + (k + 2) * 2 := by ring
  rw [h, Nat.add_mul_div_right _ _ (by norm_num : 0 < 2)]

theorem tri_zero : tri 0 = 1 := by decide

theorem tri_pos (k : Nat) : 1 ≤ tri k := by
  induction k with
  | zero => simp [tri_zero]
  | succ k ih => rw [tri_succ]; omega

theorem tri_lt_succ (k : Nat) : tri k < tri (k + 1) := by
  rw [tri_succ]; omega

theorem tri_mono {i j : Nat} (h : i ≤ j) : tri i ≤ tri j := by
  induction h with
  | refl => exact Nat.le_refl _
  | step _ ih => exact Nat.le_trans ih (Nat.le_of_lt (tri_lt_succ _))

/-- Every element fits an `unsigned long` as long as the index is an
`unsigned int`. -/
theorem tri_lt_ulong {i : Nat} (h : i < 2 ^ 32) : tri i < 2 ^ 64 := by
  unfold tri
  have h1 : (i + 1) * (i + 2) ≤ 2 ^ 32 * (2 ^ 32 + 1) :=
    Nat.mul_le_mul (by omega) (by omega)
  have h2 : (i + 1) * (i + 2) / 2 ≤ (i + 1) * (i + 2) := Nat.div_le_self _ _
  have h3 : (i + 1) * (i + 2) / 2 ≤ 2 ^ 32 * (2 ^ 32 + 1) / 2 := Nat.div_le_div_right h1
  have h4 : 2 ^ 32 * (2 ^ 32 + 1) / 2 < 2 ^ 64 := by norm_num
  omega

/-! ## Builder -/

/-- Loop invariant of the builder: with cells `0 .. i-1` already holding the
closed form, the loop finishes and every cell holds it. -/
theorem buildLoop_spec (n : Nat) (hn : n < 2 ^ 32) :
    ∀ (fuel i : Nat) (a : List Nat), 1 ≤ i → i ≤ n → n - i + 1 ≤ fuel →
      a.length = n → (∀ j, j < i → a[j]? = some (tri j)) →
      ∃ b, buildLoop n fuel i a = .ok b ∧ b.length = n ∧
        ∀ j, j < n → b[j]? = some (tri j) := by
  intro fuel
  induction fuel with
  | zero => intro i a _ _ hf; omega
  | succ fuel ih =>
    intro i a h1 hin hf hlen hinv
    by_cases hlt : i < n
    · have hprev : a[i - 1]? = some (tri (i - 1)) := hinv (i - 1) (by omega)
      have hi32 : i < 2 ^ 32 := by omega
      have hsub : usub32 i 1 = i - 1 := usub32_one h1 hi32
      have hadd : uadd32 i 1 = i + 1 := uadd32_small (by omega)
      have htri : tri (i - 1) + (i + 1) = tri i := by
        obtain ⟨k, rfl⟩ : ∃ k, i = k + 1 := ⟨i - 1, by omega⟩
        simp [tri_succ]
      have hval : uadd64 (tri (i - 1)) (i + 1) = tri i := by
        rw [uadd64_small (by rw [htri]; exact tri_lt_ulong hi32), htri]
      have hst : store a i (tri i) = .ok (a.set i (tri i)) :=
        store_of_lt _ (by omega)
      have hrec := ih (i + 1) (a.set i (tri i)) (by omega) (by omega) (by omega)
        (by simp [hlen]) (by
          intro j hj
          by_cases hji : j = i
          · subst hji
            simp [List.getElem?_set, hlen, hlt]
          · rw [List.getElem?_set_ne (Ne.symm hji)]
            exact hinv j (by omega))
      simp only [buildLoop, hlt, if_true, hsub, load_of_getElem? hprev, hadd, hval, hst]
      exact hrec
    · have hin2 : i = n := by omega
      refine ⟨a, by simp [buildLoop, hlt], hlen, ?_⟩
      intro j hj
      exact hinv j (by omega)

/-- The builder returns the list of the closed-form values. -/
theorem build_eq (n : Nat) (mem : List Nat) (h1 : 1 ≤ n) (hn : n < 2 ^ 32)
    (hlen : mem.length = n) :
    build n mem = .ok ((List.range n).map tri) := by
  have hst : store mem 0 1 = .ok (mem.set 0 1) := store_of_lt _ (by omega)
  obtain ⟨b, hb, hblen, hbval⟩ := buildLoop_spec n hn n 1 (mem.set 0 1)
    (Nat.le_refl _) h1 (by omega) (by simp [hlen]) (by
      intro j hj
      have hj0 : j = 0 := by omega
      subst hj0
      have : 0 < mem.length := by omega
      simp [List.getElem?_set, this, tri_zero])
  have heq : b = (List.range n).map tri := by
    apply List.ext_getElem?
    intro j
    by_cases hj : j < n
    · rw [hbval j hj]
      simp [List.getElem?_range hj]
    · have h1 : b.length ≤ j := by omega
      have h2 : ((List.range n).map tri).length ≤ j := by simp; omega
      rw [List.getElem?_eq_none h1, List.getElem?_eq_none h2]
  simp only [build, hst]
  rw [hb, heq]

end BugHuntSolution

namespace BugHuntSolution

open Machine

/-! ## Reducer: the loop against the fold of `step` -/

theorem loopBody_eq {a : List Nat} {i v : Nat} (t : Tally) (h : a[i]? = some v) :
    loopBody a i t = .ok (step t v) := by
  simp [loopBody, step, load_of_getElem? h]

/-- A scan of `[lo, hi)` inside the block folds `step` over the cells read. -/
theorem scanLoop_eq (a : List Nat) (hi : Nat) (hlen : a.length < 2 ^ 32) :
    ∀ (fuel lo : Nat) (t : Tally), hi - lo + 1 ≤ fuel → (lo < hi → hi ≤ a.length) →
      scanLoop a hi fuel lo t
        = .ok ((valuesAt a (List.range' lo (hi - lo))).foldl step t) := by
  intro fuel
  induction fuel with
  | zero => intro lo t hf; omega
  | succ fuel ih =>
    intro lo t hf hb
    by_cases hlt : lo < hi
    · have hhi := hb hlt
      have hlo : lo < a.length := by omega
      have hget : a[lo]? = some (a.getD lo 0) := by
        simp [List.getD, List.getElem?_eq_getElem hlo]
      have hadd : uadd32 lo 1 = lo + 1 := uadd32_small (by omega)
      have hrange : List.range' lo (hi - lo) = lo :: List.range' (lo + 1) (hi - (lo + 1)) := by
        have : hi - lo = (hi - (lo + 1)) + 1 := by omega
        rw [this, List.range'_succ]
      simp only [scanLoop, hlt, if_true, loopBody_eq t hget, hadd]
      rw [ih (lo + 1) (step t (a.getD lo 0)) (by omega) (fun _ => hhi), hrange]
      simp [valuesAt]
    · have h0 : hi - lo = 0 := by omega
      simp [scanLoop, hlt, h0, valuesAt]

theorem valuesAt_range (a : List Nat) : valuesAt a (List.range a.length) = a := by
  apply List.ext_getElem?
  intro j
  by_cases hj : j < a.length
  · simp [valuesAt, List.getElem?_range hj, List.getD, List.getElem?_eq_getElem hj]
  · have h1 : a.length ≤ j := by omega
    have h2 : (valuesAt a (List.range a.length)).length ≤ j := by simp [valuesAt]; omega
    rw [List.getElem?_eq_none h1, List.getElem?_eq_none h2]

theorem valuesAt_append (a : List Nat) (xs ys : List Nat) :
    valuesAt a (xs ++ ys) = valuesAt a xs ++ valuesAt a ys := by
  simp [valuesAt]

/-- The single-threaded loop folds `step` over the whole array. -/
theorem reduceSerial_eq (a : List Nat) (hlen : a.length < 2 ^ 32) :
    reduceSerial a a.length = .ok (a.foldl step initial) := by
  unfold reduceSerial
  rw [scanLoop_eq a a.length hlen (a.length + 1) 0 initial (by omega) (fun _ => Nat.le_refl _)]
  simp [← List.range_eq_range', valuesAt_range]

/-! ## Reducer: algebra of `step` and `combine` -/

theorem step_comm (t : Tally) (x y : Nat) : step (step t x) y = step (step t y) x := by
  simp only [step, uadd64, uadd32, ULONG_MOD, UINT_MOD, Tally.mk.injEq]
  refine ⟨by omega, ?_, ?_, ?_⟩
  · split_ifs <;> omega
  · split_ifs <;> omega
  · split_ifs <;> omega

theorem combine_step (out p : Tally) (v : Nat) :
    combine out (step p v) = step (combine out p) v := by
  simp only [step, combine, uadd64, uadd32, ULONG_MOD, UINT_MOD, Tally.mk.injEq]
  refine ⟨by omega, ?_, ?_, ?_⟩
  · split_ifs <;> omega
  · split_ifs <;> omega
  · split_ifs <;> omega

theorem combine_identity (out : Tally) (h : out.InRange) : combine out identity = out := by
  obtain ⟨h1, h2, h3⟩ := h
  cases out with
  | mk s mn mx ec =>
    simp only [ULONG_MAX] at h1 h2 h3
    simp only [combine, identity, uadd64, uadd32, ULONG_MOD, UINT_MOD, ULONG_MAX, Tally.mk.injEq]
    refine ⟨by omega, ?_, ?_, by omega⟩
    · split_ifs <;> omega
    · split_ifs <;> omega

theorem step_inRange (t : Tally) (v : Nat) (h : t.InRange) : (step t v).InRange := by
  obtain ⟨h1, h2, h3⟩ := h
  simp only [ULONG_MAX] at h2
  refine ⟨?_, ?_, ?_⟩
  · simp only [step, uadd64, ULONG_MOD]; omega
  · simp only [step, ULONG_MAX]; split_ifs <;> omega
  · simp only [step, uadd32, UINT_MOD]; split_ifs <;> omega

theorem foldl_step_inRange (xs : List Nat) :
    ∀ t : Tally, t.InRange → (xs.foldl step t).InRange := by
  induction xs with
  | nil => intro t h; exact h
  | cons x xs ih => intro t h; exact ih _ (step_inRange t x h)

theorem initial_inRange : initial.InRange := by
  simp [Tally.InRange, initial, ULONG_MAX]

/-- Merging a private tally is the same as continuing the scan on the shared
one. -/
theorem combine_foldl (out : Tally) (h : out.InRange) (xs : List Nat) :
    combine out (xs.foldl step identity) = xs.foldl step out := by
  induction xs using List.reverseRecOn with
  | nil => simpa using combine_identity out h
  | append_singleton ys v ih =>
    simp only [List.foldl_append, List.foldl_cons, List.foldl_nil]
    rw [combine_step, ih]

end BugHuntSolution

namespace BugHuntSolution

open Machine

/-! ## Reducer: any schedule against the single-threaded loop -/

theorem IsSplit.chunk_le {n : Nat} {chunks : List (Nat × Nat)} (hs : IsSplit n chunks)
    {c : Nat × Nat} (hc : c ∈ chunks) (hlt : c.1 < c.2) : c.2 ≤ n := by
  have hmem : c.2 - 1 ∈ (chunks.map chunkIndices).flatten := by
    rw [List.mem_flatten]
    refine ⟨chunkIndices c, List.mem_map_of_mem _ hc, ?_⟩
    simp only [chunkIndices, List.mem_range'_1]
    omega
  have := (List.Perm.mem_iff hs).mp hmem
  rw [List.mem_range] at this
  omega

/-- The sub-range `[0, n)` alone is a split of `[0, n)`. -/
theorem isSplit_whole (n : Nat) : IsSplit n [(0, n)] := by
  simp [IsSplit, chunkIndices, List.range_eq_range']

theorem reduceChunks_eq (a : List Nat) (hlen : a.length < 2 ^ 32) :
    ∀ (chunks : List (Nat × Nat)) (out : Tally), out.InRange →
      (∀ c ∈ chunks, c.1 < c.2 → c.2 ≤ a.length) →
      reduceChunks a chunks out
        = .ok ((valuesAt a (chunks.map chunkIndices).flatten).foldl step out) := by
  intro chunks
  induction chunks with
  | nil => intro out _ _; simp [reduceChunks, valuesAt]
  | cons c rest ih =>
    intro out hout hb
    obtain ⟨lo, hi⟩ := c
    have hscan := scanLoop_eq a hi hlen (hi - lo + 1) lo identity (Nat.le_refl _)
      (hb (lo, hi) (List.mem_cons_self _ _))
    simp only [reduceChunks, hscan]
    rw [combine_foldl out hout]
    rw [ih _ (foldl_step_inRange _ out hout)
      (fun c hc => hb c (List.mem_cons_of_mem _ hc))]
    simp [valuesAt_append, chunkIndices, List.foldl_append]

/-- Under every split of the index range the work-shared loop returns the fold
of `step` over the array, which is what the single-threaded loop returns. -/
theorem reduceParallel_eq (a : List Nat) (chunks : List (Nat × Nat))
    (hlen : a.length < 2 ^ 32) (hs : IsSplit a.length chunks) :
    reduceParallel a chunks = .ok (a.foldl step initial) := by
  unfold reduceParallel
  rw [reduceChunks_eq a hlen chunks initial initial_inRange
    (fun c hc hlt => hs.chunk_le hc hlt)]
  have hperm : List.Perm (valuesAt a (chunks.map chunkIndices).flatten)
      (valuesAt a (List.range a.length)) := List.Perm.map _ hs
  rw [List.Perm.foldl_eq' hperm (fun x _ y _ z => step_comm z x y), valuesAt_range]

/-! ## The tally of the built array -/

theorem two_mul_tri (k : Nat) : 2 * tri k = (k + 1) * (k + 2) := by
  induction k with
  | zero => decide
  | succ k ih => rw [tri_succ, Nat.mul_add, ih]; ring

theorem exactTotal_succ (n : Nat) : exactTotal (n + 1) = exactTotal n + tri n := by
  simp [exactTotal, List.range_succ]

theorem evenTriCount_succ (n : Nat) :
    evenTriCount (n + 1) = evenTriCount n + (if tri n % 2 = 0 then 1 else 0) := by
  simp [evenTriCount, List.range_succ, List.countP_append, List.countP_cons]

theorem evenTriCount_le (n : Nat) : evenTriCount n ≤ n := by
  have := List.countP_le_length (fun i => decide (tri i % 2 = 0)) (l := List.range n)
  simpa [evenTriCount] using this

theorem six_mul_exactTotal (n : Nat) : 6 * exactTotal n = n * (n + 1) * (n + 2) := by
  induction n with
  | zero => simp [exactTotal]
  | succ k ih =>
    have h := two_mul_tri k
    rw [exactTotal_succ, Nat.mul_add, ih]
    have : 6 * tri k = 3 * ((k + 1) * (k + 2)) := by omega
    rw [this]; ring

theorem exactTotal_eq (n : Nat) : exactTotal n = n * (n + 1) * (n + 2) / 6 := by
  rw [← six_mul_exactTotal, Nat.mul_div_cancel_left _ (by norm_num : 0 < 6)]

theorem exactTotal_mono {m n : Nat} (h : m ≤ n) : exactTotal m ≤ exactTotal n := by
  induction h with
  | refl => exact Nat.le_refl _
  | step _ ih => rw [exactTotal_succ]; omega

/-- The four scalars after a scan of the first `n` closed-form values. -/
theorem foldl_step_tri (n : Nat) (h1 : 1 ≤ n) (hn : n < 2 ^ 32) :
    ((List.range n).map tri).foldl step initial
      = { sum := exactTotal n % 2 ^ 64, min_val := 1, max_val := tri (n - 1),
          even_count := evenTriCount n } := by
  induction n, h1 using Nat.le_induction with
  | base => decide
  | succ k hk ih =>
    have hcnt := evenTriCount_le k
    have hlt := tri_lt_succ (k - 1)
    have hk1 : k - 1 + 1 = k := by omega
    rw [hk1] at hlt
    have hpos := tri_pos k
    rw [List.range_succ, List.map_append, List.foldl_append, ih (by omega)]
    simp only [List.map_cons, List.map_nil, List.foldl_cons, List.foldl_nil, step,
      Tally.mk.injEq, exactTotal_succ, evenTriCount_succ, uadd64, uadd32, ULONG_MOD, UINT_MOD,
      Nat.add_sub_cancel]
    refine ⟨by omega, ?_, ?_, ?_⟩
    · split_ifs <;> omega
    · split_ifs <;> omega
    · split_ifs <;> omega

end BugHuntSolution

namespace BugHuntSolution

open Machine

/-! ## The whole computation -/

theorem getElem?_map_tri {n k : Nat} (h : k < n) :
    ((List.range n).map tri)[k]? = some (tri k) := by
  simp [List.getElem?_range h]

/-- The reads of the report stay inside the built array. -/
theorem readReport_eq (n : Nat) (t : Tally) (h6 : 6 ≤ n) (hn : n < 2 ^ 32) :
    readReport ((List.range n).map tri) n t
      = .ok { first6 := [1, 3, 6, 10, 15, 21], lastIndex := n - 1, last := tri (n - 1),
              sum := t.sum, min_val := t.min_val, max_val := t.max_val,
              even_count := t.even_count } := by
  have hsub : usub32 n 1 = n - 1 := usub32_one (by omega) hn
  have l0 := load_of_getElem? (getElem?_map_tri (n := n) (k := 0) (by omega))
  have l1 := load_of_getElem? (getElem?_map_tri (n := n) (k := 1) (by omega))
  have l2 := load_of_getElem? (getElem?_map_tri (n := n) (k := 2) (by omega))
  have l3 := load_of_getElem? (getElem?_map_tri (n := n) (k := 3) (by omega))
  have l4 := load_of_getElem? (getElem?_map_tri (n := n) (k := 4) (by omega))
  have l5 := load_of_getElem? (getElem?_map_tri (n := n) (k := 5) (by omega))
  have ll := load_of_getElem? (getElem?_map_tri (n := n) (k := n - 1) (by omega))
  simp only [readReport, hsub, l0, l1, l2, l3, l4, l5, ll]
  rfl

/-- The tally of a valid run under any schedule, in closed form. -/
theorem reduceParallel_built (n : Nat) (chunks : List (Nat × Nat))
    (h1 : 1 ≤ n) (hn : n < 2 ^ 32) (hs : IsSplit n chunks) :
    reduceParallel ((List.range n).map tri) chunks
      = .ok { sum := exactTotal n % 2 ^ 64, min_val := 1, max_val := tri (n - 1),
              even_count := evenTriCount n } := by
  have hlen : ((List.range n).map tri).length = n := by simp
  have hr := reduceParallel_eq ((List.range n).map tri) chunks (by rw [hlen]; exact hn)
    (by rw [hlen]; exact hs)
  rw [foldl_step_tri n h1 hn] at hr
  exact hr

/-- The report of a valid run, in closed form. -/
theorem compute_eq (n : Nat) (chunks : List (Nat × Nat)) (junk : Nat → Nat)
    (h6 : 6 ≤ n) (hn : n < 2 ^ 32) (hs : IsSplit n chunks) :
    compute n chunks junk
      = .ok { first6 := [1, 3, 6, 10, 15, 21], lastIndex := n - 1, last := tri (n - 1),
              sum := exactTotal n % 2 ^ 64, min_val := 1, max_val := tri (n - 1),
              even_count := evenTriCount n } := by
  have hb := build_eq n (malloc n junk) (by omega) hn (malloc_length n junk)
  have hr := reduceParallel_built n chunks (by omega) hn hs
  simp only [compute, hb, hr, readReport_eq n _ h6 hn]

theorem toUInt_natCast {n : Nat} (hn : n < 2 ^ 32) : toUInt (n : Int) = n := by
  unfold toUInt UINT_MOD
  omega

/-- The fields of the report of a valid run. -/
theorem compute_fields (n : Nat) (chunks : List (Nat × Nat)) (junk : Nat → Nat)
    (h6 : 6 ≤ n) (hn : n < 2 ^ 32) (hs : IsSplit n chunks) :
    ∃ r, compute n chunks junk = .ok r ∧ r.first6 = [1, 3, 6, 10, 15, 21] ∧
      r.lastIndex = n - 1 ∧ r.last = tri (n - 1) ∧ r.sum = exactTotal n % 2 ^ 64 ∧
      r.min_val = 1 ∧ r.max_val = tri (n - 1) ∧ r.even_count = evenTriCount n :=
  ⟨_, compute_eq n chunks junk h6 hn hs, rfl, rfl, rfl, rfl, rfl, rfl, rfl⟩

set_option maxRecDepth 4000 in
theorem evenTriCount_100 : evenTriCount 100 = 50 := by decide

theorem exactTotal_100 : exactTotal 100 = 171700 := by
  rw [exactTotal_eq]

theorem tri_99 : tri 99 = 5050 := by decide

/-- A run whose converted count is at least 6 goes through to the report. -/
theorem main_of_valid (z : Int) (chunks : List (Nat × Nat)) (junk : Nat → Nat)
    (h6 : 6 ≤ toUInt z) :
    main 3 z chunks junk
      = (match compute (toUInt z) chunks junk with
         | .error e => .error e
         | .ok r => .ok (.EXIT_SUCCESS, .report r)) := by
  have : ¬ toUInt z < 6 := by omega
  simp [main, this]

end BugHuntSolution

namespace ParallelFor

open Machine

/-! ## Sum from 1 to `upper_bound` -/

theorem half_step (i : Nat) (h1 : 1 ≤ i) : i * (i - 1) / 2 + i = (i + 1) * (i + 1 - 1) / 2 := by
  obtain ⟨k, rfl⟩ : ∃ k, i = k + 1 := ⟨i - 1, by omega⟩
  have h : (k + 1 + 1) * (k + 1 + 1 - 1) = (k + 1) * (k + 1 - 1) + (k + 1) * 2 := by
    simp only [Nat.add_sub_cancel]; ring
  rw [h, Nat.add_mul_div_right _ _ (by norm_num : 0 < 2)]

/-- Loop invariant: before the iteration for `i` the accumulator holds the sum
of `1 .. i-1` modulo `2^64`; the loop ends with the sum of `1 .. upper_bound`
modulo `2^64`. -/
theorem sumLoop_spec (ub : Nat) (hub : ub < 2 ^ 64 - 1) :
    ∀ (fuel i : Nat), 1 ≤ i → i ≤ ub + 1 → ub + 2 - i ≤ fuel →
      sumLoop ub fuel i (i * (i - 1) / 2 % 2 ^ 64) = .ok (ub * (ub + 1) / 2 % 2 ^ 64) := by
  intro fuel
  induction fuel with
  | zero => intro i _ _ hf; omega
  | succ fuel ih =>
    intro i h1 hi hf
    by_cases hle : i ≤ ub
    · have hadd : uadd64 i 1 = i + 1 := uadd64_small (by omega)
      have hacc : uadd64 (i * (i - 1) / 2 % 2 ^ 64) i = (i + 1) * (i + 1 - 1) / 2 % 2 ^ 64 := by
        rw [← half_step i h1]
        simp only [uadd64, ULONG_MOD]
        omega
      simp only [sumLoop, hle, if_true, hadd, hacc]
      exact ih (i + 1) (by omega) (by omega) (by omega)
    · have hiu : i = ub + 1 := by omega
      subst hiu
      simp only [sumLoop, hle, if_false, Nat.add_sub_cancel]
      rw [Nat.mul_comm]

/-- The accumulated value is the sum of `1 .. upper_bound` modulo `2^64`. -/
theorem global_sum_eq (ub : Nat) (hub : ub < 2 ^ 64 - 1) :
    global_sum ub = .ok (ub * (ub + 1) / 2 % 2 ^ 64) := by
  have h := sumLoop_spec ub hub (ub + 1) 1 (Nat.le_refl _) (by omega) (by omega)
  simpa [global_sum] using h

theorem resultIsCorrect_of {ub s : Nat} (h : global_sum ub = .ok s) :
    resultIsCorrect ub = .ok (decide (s = expected_sum ub)) := by
  unfold resultIsCorrect
  rw [h]

end ParallelFor

namespace BugHuntSolution

open Machine

/-! ## Claims -/

/-- C1. Sequence builder closed form: for every `unsigned int` count `n >= 6`
the builder finishes and cell `i` of the array holds `(i+1)*(i+2)/2`, for every
`i` in `[0, n)`. -/
theorem build_closed_form (n : Nat) (junk : Nat → Nat) (h6 : 6 ≤ n) (hn : n < 2 ^ 32) :
    ∃ a, build n (malloc n junk) = .ok a ∧ a.length = n ∧
      ∀ i, i < n → a[i]? = some ((i + 1) * (i + 2) / 2) := by
  refine ⟨(List.range n).map tri,
    build_eq n (malloc n junk) (by omega) hn (malloc_length n junk), by simp, ?_⟩
  intro i hi
  exact getElem?_map_tri hi

theorem build_closed_form_witness :
    (6 : Nat) ≤ 8 ∧ (8 : Nat) < 2 ^ 32 ∧
    ∃ a, build 8 (malloc 8 (fun k => 1000 + k)) = .ok a ∧ a.length = 8 ∧
      ∀ i, i < 8 → a[i]? = some ((i + 1) * (i + 2) / 2) :=
  ⟨by decide, by decide, build_closed_form 8 (fun k => 1000 + k) (by decide) (by decide)⟩

/-- C2. The reducer is partition independent: for every array (of `unsigned
int` length) and every split of `[0, n)` into disjoint sub-ranges, empty ones
included, merged in any order, the work-shared loop returns the same
`(sum, min, max, even_count)` as the single-threaded loop over the whole
array, and both return. -/
theorem reducer_partition_independent (a : List Nat) (chunks : List (Nat × Nat))
    (hlen : a.length < 2 ^ 32) (hs : IsSplit a.length chunks) :
    ∃ t, reduceSerial a a.length = .ok t ∧ reduceParallel a chunks = .ok t :=
  ⟨a.foldl step initial, reduceSerial_eq a hlen, reduceParallel_eq a chunks hlen hs⟩

theorem reducer_partition_independent_witness :
    [7, 2, 9, 4, 4, 11, 0].length < 2 ^ 32 ∧
    IsSplit [7, 2, 9, 4, 4, 11, 0].length [(5, 7), (3, 3), (0, 2), (2, 5), (9, 4)] ∧
    ∃ t, reduceSerial [7, 2, 9, 4, 4, 11, 0] [7, 2, 9, 4, 4, 11, 0].length = .ok t ∧
      reduceParallel [7, 2, 9, 4, 4, 11, 0] [(5, 7), (3, 3), (0, 2), (2, 5), (9, 4)] = .ok t :=
  ⟨by decide, by decide,
    reducer_partition_independent [7, 2, 9, 4, 4, 11, 0] [(5, 7), (3, 3), (0, 2), (2, 5), (9, 4)]
      (by decide) (by decide)⟩

end BugHuntSolution

namespace BugHuntSolution

open Machine

/-- C3. For every valid count `n >= 6` and every schedule, the reducer applied
to the built array reports `min == a[0] == 1` and `max == a[n-1]`. -/
theorem reducer_min_max (n : Nat) (chunks : List (Nat × Nat)) (junk : Nat → Nat)
    (h6 : 6 ≤ n) (hn : n < 2 ^ 32) (hs : IsSplit n chunks) :
    ∃ a t, build n (malloc n junk) = .ok a ∧ reduceParallel a chunks = .ok t ∧
      t.min_val = 1 ∧ a[0]? = some t.min_val ∧ a[n - 1]? = some t.max_val := by
  refine ⟨(List.range n).map tri, _,
    build_eq n (malloc n junk) (by omega) hn (malloc_length n junk),
    reduceParallel_built n chunks (by omega) hn hs, rfl, ?_, ?_⟩
  · exact getElem?_map_tri (by omega)
  · exact getElem?_map_tri (by omega)

theorem reducer_min_max_witness :
    (6 : Nat) ≤ 7 ∧ (7 : Nat) < 2 ^ 32 ∧ IsSplit 7 [(0, 3), (3, 7)] ∧
    ∃ a t, build 7 (malloc 7 (fun _ => 0)) = .ok a ∧
      reduceParallel a [(0, 3), (3, 7)] = .ok t ∧
      t.min_val = 1 ∧ a[0]? = some t.min_val ∧ a[7 - 1]? = some t.max_val :=
  ⟨by decide, by decide, by decide,
    reducer_min_max 7 [(0, 3), (3, 7)] (fun _ => 0) (by decide) (by decide) (by decide)⟩

/-- C4. For every valid count `n >= 6` and every schedule, the reported
`even_count` is the number of indices `i` in `[0, n)` for which `(i+1)(i+2)/2`
is even; for `n = 100` it is 50. -/
theorem even_count_closed_form (n : Nat) (chunks : List (Nat × Nat)) (junk : Nat → Nat)
    (h6 : 6 ≤ n) (hn : n < 2 ^ 32) (hs : IsSplit n chunks) :
    ∃ r, compute n chunks junk = .ok r ∧
      r.even_count = (List.range n).countP (fun i => (i + 1) * (i + 2) / 2 % 2 = 0) ∧
      (n = 100 → r.even_count = 50) := by
  refine ⟨_, compute_eq n chunks junk h6 hn hs, rfl, ?_⟩
  intro h
  subst h
  decide

theorem even_count_closed_form_witness :
    (6 : Nat) ≤ 100 ∧ (100 : Nat) < 2 ^ 32 ∧
    IsSplit 100 [(0, 25), (25, 50), (50, 75), (75, 100)] ∧
    ∃ r, compute 100 [(0, 25), (25, 50), (50, 75), (75, 100)] (fun _ => 0) = .ok r ∧
      r.even_count = (List.range 100).countP (fun i => (i + 1) * (i + 2) / 2 % 2 = 0) ∧
      ((100 : Nat) = 100 → r.even_count = 50) :=
  ⟨by decide, by decide, by decide,
    even_count_closed_form 100 [(0, 25), (25, 50), (50, 75), (75, 100)] (fun _ => 0)
      (by decide) (by decide) (by decide)⟩

end BugHuntSolution

namespace BugHuntSolution

open Machine

/-- Validation on the converted count: a wrong argument count or a converted
count below 6 returns the failure status before the block is allocated; any
other run goes through to the report and returns the success status. -/
theorem main_validation (argc z : Int) (chunks : List (Nat × Nat)) (junk : Nat → Nat) :
    (argc ≠ 3 → main argc z chunks junk = .ok (.EXIT_FAILURE, .usage)) ∧
    (argc = 3 → toUInt z < 6 → main argc z chunks junk = .ok (.EXIT_FAILURE, .pleaseProvide)) ∧
    (argc = 3 → 6 ≤ toUInt z → IsSplit (toUInt z) chunks →
      ∃ r, main argc z chunks junk = .ok (.EXIT_SUCCESS, .report r)) := by
  refine ⟨fun h => by simp [main, h], fun h hlt => by simp [main, h, hlt], ?_⟩
  intro h h6 hs
  subst h
  have hlt : toUInt z < 2 ^ 32 := by
    unfold toUInt UINT_MOD
    omega
  obtain ⟨r, hr, -⟩ := compute_fields (toUInt z) chunks junk h6 hlt hs
  refine ⟨r, ?_⟩
  rw [main_of_valid z chunks junk h6, hr]

/-- C5. Concrete scenario `n = 100`: under every schedule the program prints
`a[0..5] = 1, 3, 6, 10, 15, 21`, `a[99] = 5050`, `sum = 171700`, `min = 1`,
`max = 5050`, `even_count = 50`, and the quotient `sum / n` is exactly 1717. -/
theorem scenario_100 (chunks : List (Nat × Nat)) (junk : Nat → Nat)
    (hs : IsSplit 100 chunks) :
    ∃ r, main 3 100 chunks junk = .ok (.EXIT_SUCCESS, .report r) ∧
      r.first6 = [1, 3, 6, 10, 15, 21] ∧ r.lastIndex = 99 ∧ r.last = 5050 ∧
      r.sum = 171700 ∧ r.min_val = 1 ∧ r.max_val = 5050 ∧ r.even_count = 50 ∧
      (r.sum : ℚ) / 100 = 1717 := by
  have hu : toUInt 100 = 100 := by decide
  have hm := main_of_valid 100 chunks junk (by rw [hu]; decide)
  obtain ⟨r, hr, hf, hli, hl, hsum, hmin, hmax, hec⟩ :=
    compute_fields 100 chunks junk (by decide) (by decide) hs
  rw [hu, hr] at hm
  have h1 : tri (100 - 1) = 5050 := tri_99
  have h2 : r.sum = 171700 := by rw [hsum, exactTotal_100]; norm_num
  refine ⟨r, hm, hf, hli, by rw [hl, h1], h2, hmin, by rw [hmax, h1],
    by rw [hec, evenTriCount_100], ?_⟩
  rw [h2]
  norm_num

theorem scenario_100_witness :
    IsSplit 100 [(0, 25), (25, 50), (50, 75), (75, 100)] ∧
    ∃ r, main 3 100 [(0, 25), (25, 50), (50, 75), (75, 100)] (fun _ => 0)
        = .ok (.EXIT_SUCCESS, .report r) ∧
      r.first6 = [1, 3, 6, 10, 15, 21] ∧ r.lastIndex = 99 ∧ r.last = 5050 ∧
      r.sum = 171700 ∧ r.min_val = 1 ∧ r.max_val = 5050 ∧ r.even_count = 50 ∧
      (r.sum : ℚ) / 100 = 1717 :=
  ⟨by decide,
    scenario_100 [(0, 25), (25, 50), (50, 75), (75, 100)] (fun _ => 0) (by decide)⟩

/-- C6. Evaluation at the first argument `-1` with three arguments: the count
is converted to the `unsigned int` 4294967295, passes the test `n < 6`, and the
run allocates, computes and returns the success status. -/
theorem main_negative_count_not_rejected :
    toUInt (-1) = 4294967295 ∧
    ∃ r, main 3 (-1) [(0, 4294967295)] (fun _ => 0) = .ok (.EXIT_SUCCESS, .report r) := by
  have hu : toUInt (-1) = 4294967295 := by decide
  have hm := main_of_valid (-1) [(0, 4294967295)] (fun _ => 0) (by rw [hu]; decide)
  obtain ⟨r, hr, -⟩ := compute_fields 4294967295 [(0, 4294967295)] (fun _ => 0)
    (by decide) (by decide) (isSplit_whole _)
  rw [hu, hr] at hm
  exact ⟨hu, r, hm⟩

/-- C7, as stated, fails: for `n = 4801279` the reported sum is 5458799173504
while the total of the elements is 18446749532508725120. -/
theorem sum_wraps_at_4801279 :
    ∃ r, compute 4801279 [(0, 4801279)] (fun _ => 0) = .ok r ∧
      r.sum = 5458799173504 ∧ exactTotal 4801279 = 18446749532508725120 ∧
      r.sum ≠ exactTotal 4801279 := by
  have ht : exactTotal 4801279 = 18446749532508725120 := by
    rw [exactTotal_eq]
  obtain ⟨r, hr, -, -, -, hsum, -⟩ := compute_fields 4801279 [(0, 4801279)] (fun _ => 0)
    (by decide) (by decide) (isSplit_whole _)
  rw [ht] at hsum
  have hval : r.sum = 5458799173504 := by rw [hsum]; norm_num
  refine ⟨r, hr, hval, ht, ?_⟩
  rw [hval, ht]
  decide

/-- C7, amended. For every valid count `n >= 6` and every schedule the reported
sum is the total of the `n` elements modulo `2^64`; it is the exact total, with
no wraparound, whenever `n <= 4801278`. -/
theorem sum_modulo_ulong (n : Nat) (chunks : List (Nat × Nat)) (junk : Nat → Nat)
    (h6 : 6 ≤ n) (hn : n < 2 ^ 32) (hs : IsSplit n chunks) :
    ∃ r, compute n chunks junk = .ok r ∧
      r.sum = ((List.range n).map (fun i => (i + 1) * (i + 2) / 2)).sum % 2 ^ 64 ∧
      (n ≤ 4801278 → r.sum = ((List.range n).map (fun i => (i + 1) * (i + 2) / 2)).sum) := by
  obtain ⟨r, hr, -, -, -, hsum, -⟩ := compute_fields n chunks junk h6 hn hs
  have hdef : ((List.range n).map (fun i => (i + 1) * (i + 2) / 2)).sum = exactTotal n := rfl
  rw [hdef]
  refine ⟨r, hr, hsum, ?_⟩
  intro hle
  have hmono := exactTotal_mono hle
  have hb : exactTotal 4801278 < 2 ^ 64 := by
    rw [exactTotal_eq]
    norm_num
  rw [hsum]
  exact Nat.mod_eq_of_lt (Nat.lt_of_le_of_lt hmono hb)

theorem sum_modulo_ulong_witness :
    (6 : Nat) ≤ 6 ∧ (6 : Nat) < 2 ^ 32 ∧ IsSplit 6 [(2, 6), (0, 2)] ∧
    ∃ r, compute 6 [(2, 6), (0, 2)] (fun _ => 0) = .ok r ∧
      r.sum = ((List.range 6).map (fun i => (i + 1) * (i + 2) / 2)).sum % 2 ^ 64 ∧
      ((6 : Nat) ≤ 4801278 →
        r.sum = ((List.range 6).map (fun i => (i + 1) * (i + 2) / 2)).sum) :=
  ⟨by decide, by decide, by decide,
    sum_modulo_ulong 6 [(2, 6), (0, 2)] (fun _ => 0) (by decide) (by decide) (by decide)⟩

/-- C10. Index safety: for every valid count `n >= 6` and every schedule, the
builder, the reducer and the reads of the report all finish without an access
outside the block of `n` cells. -/
theorem index_safety (n : Nat) (chunks : List (Nat × Nat)) (junk : Nat → Nat)
    (h6 : 6 ≤ n) (hn : n < 2 ^ 32) (hs : IsSplit n chunks) :
    (malloc n junk).length = n ∧
    ∃ a t r, build n (malloc n junk) = .ok a ∧ a.length = n ∧
      reduceParallel a chunks = .ok t ∧ readReport a n t = .ok r ∧
      compute n chunks junk = .ok r := by
  refine ⟨malloc_length n junk, (List.range n).map tri, _, _,
    build_eq n (malloc n junk) (by omega) hn (malloc_length n junk), by simp,
    reduceParallel_built n chunks (by omega) hn hs, readReport_eq n _ h6 hn, ?_⟩
  exact compute_eq n chunks junk h6 hn hs

theorem index_safety_witness :
    (6 : Nat) ≤ 6 ∧ (6 : Nat) < 2 ^ 32 ∧ IsSplit 6 [(0, 2), (2, 4), (4, 6)] ∧
    ((malloc 6 (fun k => k)).length = 6 ∧
    ∃ a t r, build 6 (malloc 6 (fun k => k)) = .ok a ∧ a.length = 6 ∧
      reduceParallel a [(0, 2), (2, 4), (4, 6)] = .ok t ∧ readReport a 6 t = .ok r ∧
      compute 6 [(0, 2), (2, 4), (4, 6)] (fun k => k) = .ok r) :=
  ⟨by decide, by decide, by decide,
    index_safety 6 [(0, 2), (2, 4), (4, 6)] (fun k => k) (by decide) (by decide) (by decide)⟩

end BugHuntSolution

namespace ParallelFor

open Machine

/-- C9, as stated, fails: for `upper_bound = 4294967296` the loop accumulates
9223372039002259456, the check value is 2147483648, and the program prints that
the result is incorrect. -/
theorem self_check_fails_at_two_pow_32 :
    global_sum 4294967296 = .ok 9223372039002259456 ∧
    expected_sum 4294967296 = 2147483648 ∧
    resultIsCorrect 4294967296 = .ok false := by
  have hg : global_sum 4294967296 = .ok 9223372039002259456 := by
    rw [global_sum_eq 4294967296 (by norm_num)]
    norm_num
  have he : expected_sum 4294967296 = 2147483648 := by decide
  refine ⟨hg, he, ?_⟩
  rw [resultIsCorrect_of hg, he]
  rfl

/-- C9, amended. For every `upper_bound <= 4294967295`, where the product
`upper_bound * (upper_bound + 1)` does not wrap, the loop ends with
`global_sum == expected_sum` and the program reports the result as correct. -/
theorem self_check_passes (ub : Nat) (h : ub ≤ 4294967295) :
    global_sum ub = .ok (expected_sum ub) ∧ resultIsCorrect ub = .ok true := by
  have hg := global_sum_eq ub (by omega)
  have hprod : ub * (ub + 1) ≤ 4294967295 * 4294967296 := Nat.mul_le_mul h (by omega)
  have hdiv : ub * (ub + 1) / 2 ≤ ub * (ub + 1) := Nat.div_le_self _ _
  have hexp : expected_sum ub = ub * (ub + 1) / 2 := by
    unfold expected_sum
    rw [uadd64_small (by omega)]
    simp only [ULONG_MOD]
    rw [Nat.mod_eq_of_lt (by omega)]
  have hmod : ub * (ub + 1) / 2 % 2 ^ 64 = ub * (ub + 1) / 2 := Nat.mod_eq_of_lt (by omega)
  rw [hmod] at hg
  refine ⟨by rw [hg, hexp], ?_⟩
  rw [resultIsCorrect_of hg, hexp]
  simp

theorem self_check_passes_witness :
    (100 : Nat) ≤ 4294967295 ∧
    global_sum 100 = .ok (expected_sum 100) ∧ resultIsCorrect 100 = .ok true :=
  ⟨by decide, self_check_passes 100 (by decide)⟩

end ParallelFor

namespace BugHunt

open Machine

/-! ## `bug_hunt.c` run sequentially against the solution -/

theorem buildLoop_eq_solution (n : Nat) :
    ∀ (fuel i : Nat) (a : List Nat),
      buildLoop n fuel i a = BugHuntSolution.buildLoop n fuel i a := by
  intro fuel
  induction fuel with
  | zero => intro i a; rfl
  | succ fuel ih =>
    intro i a
    simp only [buildLoop, BugHuntSolution.buildLoop, ih]

theorem build_eq_solution (n : Nat) (mem : List Nat) :
    build n mem = BugHuntSolution.build n mem := by
  simp only [build, BugHuntSolution.build]
  cases store mem 0 1 with
  | error e => rfl
  | ok a => exact buildLoop_eq_solution n n 1 a

theorem scanLoop_eq_solution (a : List Nat) (n : Nat) :
    ∀ (fuel i : Nat) (t : BugHuntSolution.Tally),
      scanLoop a n fuel i t = BugHuntSolution.scanLoop a n fuel i t := by
  intro fuel
  induction fuel with
  | zero => intro i t; rfl
  | succ fuel ih =>
    intro i t
    simp only [scanLoop, BugHuntSolution.scanLoop, BugHuntSolution.loopBody, ih]
    split_ifs
    · cases load a i <;> rfl
    · rfl

theorem reduce_eq_solution (a : List Nat) (n : Nat) :
    reduce a n = BugHuntSolution.reduceSerial a n :=
  scanLoop_eq_solution a n (n + 1) 0 _

theorem readReport_eq_solution (a : List Nat) (n : Nat) (t : BugHuntSolution.Tally) :
    readReport a n t = BugHuntSolution.readReport a n t := rfl

/-- The single-threaded scan of the built array, in closed form. -/
theorem reduce_built (n : Nat) (h1 : 1 ≤ n) (hn : n < 2 ^ 32) :
    reduce ((List.range n).map BugHuntSolution.tri) n
      = .ok { sum := BugHuntSolution.exactTotal n % 2 ^ 64, min_val := 1,
              max_val := BugHuntSolution.tri (n - 1),
              even_count := BugHuntSolution.evenTriCount n } := by
  have hlen : ((List.range n).map BugHuntSolution.tri).length = n := by simp
  have h := BugHuntSolution.reduceSerial_eq ((List.range n).map BugHuntSolution.tri)
    (by rw [hlen]; exact hn)
  rw [hlen, BugHuntSolution.foldl_step_tri n h1 hn] at h
  rw [reduce_eq_solution, h]

/-- The report of a valid sequential run of `bug_hunt.c`, in closed form. -/
theorem serial_compute_eq (n : Nat) (junk : Nat → Nat) (h6 : 6 ≤ n) (hn : n < 2 ^ 32) :
    compute n junk
      = .ok { first6 := [1, 3, 6, 10, 15, 21], lastIndex := n - 1,
              last := BugHuntSolution.tri (n - 1),
              sum := BugHuntSolution.exactTotal n % 2 ^ 64, min_val := 1,
              max_val := BugHuntSolution.tri (n - 1),
              even_count := BugHuntSolution.evenTriCount n } := by
  have hb := BugHuntSolution.build_eq n (malloc n junk) (by omega) hn (malloc_length n junk)
  rw [← build_eq_solution] at hb
  simp only [compute, hb, reduce_built n (by omega) hn, readReport_eq_solution,
    BugHuntSolution.readReport_eq n _ h6 hn]

theorem serial_main_of_valid (z : Int) (junk : Nat → Nat) (h6 : 6 ≤ toUInt z) :
    main 3 z junk
      = (match compute (toUInt z) junk with
         | .error e => .error e
         | .ok r => .ok (.EXIT_SUCCESS, .report r)) := by
  have : ¬ toUInt z < 6 := by omega
  simp only [main, this, ne_eq, not_true_eq_false, if_false] <;>
    (cases compute (toUInt z) junk <;> rfl)

end BugHunt

namespace Reduction

open Machine

/-! ## Manual range partitioning -/

/-- A thread's loop over `[i, hi]` adds the integers of the range to its
private copy, modulo `2^64`. -/
theorem threadLoop_eq (hi : Nat) (hhi : hi < 2 ^ 64 - 1) :
    ∀ (fuel i s : Nat), hi + 1 - i + 1 ≤ fuel → s < 2 ^ 64 →
      threadLoop hi fuel i s = .ok ((s + (List.range' i (hi + 1 - i)).sum) % 2 ^ 64) := by
  intro fuel
  induction fuel with
  | zero => intro i s hf; omega
  | succ fuel ih =>
    intro i s hf hs
    by_cases hle : i ≤ hi
    · have hadd : uadd64 i 1 = i + 1 := uadd64_small (by omega)
      have hrange : List.range' i (hi + 1 - i) = i :: List.range' (i + 1) (hi + 1 - (i + 1)) := by
        have : hi + 1 - i = (hi + 1 - (i + 1)) + 1 := by omega
        rw [this, List.range'_succ]
      have hacc : uadd64 s i < 2 ^ 64 := by
        simp only [uadd64, ULONG_MOD]; omega
      simp only [threadLoop, hle, if_true, hadd]
      rw [ih (i + 1) (uadd64 s i) (by omega) hacc, hrange, List.sum_cons]
      simp only [uadd64, ULONG_MOD]
      congr 1
      omega
    · have h0 : hi + 1 - i = 0 := by omega
      simp only [threadLoop, hle, if_false, h0, List.range'_zero, List.sum_nil, Nat.add_zero]
      rw [Nat.mod_eq_of_lt hs]

/-- Without wraparound in the products the bounds are the plain quotients. -/
theorem local_start_eq {ub tid t : Nat} (ht : tid < t) (hmul : ub * t < 2 ^ 64) :
    local_start ub tid t = ub * tid / t + 1 := by
  have h1 : ub * tid ≤ ub * t := Nat.mul_le_mul_left _ (Nat.le_of_lt ht)
  have h2 : ub * tid / t ≤ ub * tid := Nat.div_le_self _ _
  have h3 : ub * tid / t + 1 < 2 ^ 64 := by
    rcases Nat.eq_zero_or_pos ub with h0 | hpos
    · subst h0; simp
    · have hlt : ub * tid < t * ub := by
        rw [Nat.mul_comm t ub]
        exact Nat.mul_lt_mul_of_pos_left ht hpos
      have hdiv : ub * tid / t < ub := Nat.div_lt_of_lt_mul hlt
      have hub : ub ≤ ub * t := Nat.le_mul_of_pos_right _ (by omega)
      omega
  unfold local_start umul64 ULONG_MOD
  rw [Nat.mod_eq_of_lt (by omega), uadd64_small h3]

theorem local_end_eq {ub tid t : Nat} (ht : tid < t) (ht32 : t < 2 ^ 32)
    (hmul : ub * t < 2 ^ 64) :
    local_end ub tid t = ub * (tid + 1) / t := by
  have h1 : ub * (tid + 1) ≤ ub * t := Nat.mul_le_mul_left _ ht
  unfold local_end umul64 ULONG_MOD
  rw [uadd32_small (by omega), Nat.mod_eq_of_lt (by omega)]

theorem threadRange_eq {ub tid t : Nat} (ht : tid < t) (ht32 : t < 2 ^ 32)
    (hmul : ub * t < 2 ^ 64) :
    threadRange ub tid t
      = List.range' (1 + ub * tid / t) (ub * (tid + 1) / t - ub * tid / t) := by
  unfold threadRange
  rw [local_start_eq ht hmul, local_end_eq ht ht32 hmul]
  congr 1 <;> omega

/-- The ranges of the threads `0 .. m-1`, one after the other, are the
integers from 1 to the end of the last range. -/
theorem flatMap_threadRange (ub t : Nat) (ht32 : t < 2 ^ 32) (hmul : ub * t < 2 ^ 64) :
    ∀ m, m ≤ t →
      (List.range m).flatMap (fun tid => threadRange ub tid t)
        = List.range' 1 (ub * m / t) := by
  intro m
  induction m with
  | zero => intro _; simp
  | succ m ih =>
    intro hm
    have hmono : ub * m / t ≤ ub * (m + 1) / t :=
      Nat.div_le_div_right (Nat.mul_le_mul_left _ (Nat.le_succ m))
    rw [List.range_succ, List.flatMap_append, ih (by omega)]
    simp only [List.flatMap_cons, List.flatMap_nil, List.append_nil]
    rw [threadRange_eq (by omega) ht32 hmul, List.range'_append_1]
    congr 1
    omega

/-- Without wraparound the ranges of all threads are exactly `1 .. ub`. -/
theorem flatMap_threadRange_all (ub t : Nat) (ht : 1 ≤ t) (ht32 : t < 2 ^ 32)
    (hmul : ub * t < 2 ^ 64) :
    (List.range t).flatMap (fun tid => threadRange ub tid t) = List.range' 1 ub := by
  rw [flatMap_threadRange ub t ht32 hmul t (Nat.le_refl _),
    Nat.mul_div_cancel _ (by omega : 0 < t)]

theorem local_end_le {ub tid t : Nat} (ht : tid < t) (ht32 : t < 2 ^ 32)
    (hmul : ub * t < 2 ^ 64) : local_end ub tid t ≤ ub := by
  rw [local_end_eq ht ht32 hmul]
  have h1 : ub * (tid + 1) ≤ ub * t := Nat.mul_le_mul_left _ ht
  calc ub * (tid + 1) / t ≤ ub * t / t := Nat.div_le_div_right h1
    _ = ub := Nat.mul_div_cancel _ (by omega : 0 < t)

/-- The private sum of a thread is the sum of its range modulo `2^64`. -/
theorem threadSum_eq {ub tid t : Nat} (ht : tid < t) (ht32 : t < 2 ^ 32)
    (hmul : ub * t < 2 ^ 64) (hub : ub < 2 ^ 64 - 1) :
    threadSum ub tid t = .ok ((threadRange ub tid t).sum % 2 ^ 64) := by
  have hle := local_end_le ht ht32 hmul
  unfold threadSum threadRange
  rw [threadLoop_eq _ (by omega) _ _ 0 (by omega) (by norm_num), Nat.zero_add]

theorem region_eq (ub t : Nat) (ht32 : t < 2 ^ 32) (hmul : ub * t < 2 ^ 64)
    (hub : ub < 2 ^ 64 - 1) :
    ∀ (order : List Nat) (g : Nat), (∀ tid ∈ order, tid < t) → g < 2 ^ 64 →
      region ub t order g
        = .ok ((g + (order.map (fun tid => (threadRange ub tid t).sum)).sum) % 2 ^ 64) := by
  intro order
  induction order with
  | nil =>
    intro g _ hg
    simp only [region, List.map_nil, List.sum_nil, Nat.add_zero]
    rw [Nat.mod_eq_of_lt hg]
  | cons tid rest ih =>
    intro g hall hg
    have htid : tid < t := hall tid (List.mem_cons_self _ _)
    have hacc : uadd64 g ((threadRange ub tid t).sum % 2 ^ 64) < 2 ^ 64 := by
      simp only [uadd64, ULONG_MOD]; omega
    simp only [region, threadSum_eq htid ht32 hmul hub]
    rw [ih _ (fun x hx => hall x (List.mem_cons_of_mem _ hx)) hacc, List.map_cons,
      List.sum_cons]
    simp only [uadd64, ULONG_MOD]
    congr 1
    omega

/-- With every thread of the team running and no wraparound, the merged sum is
the sum of `1 .. ub` modulo `2^64`, in whatever order the threads merge. -/
theorem merged_sum_eq (ub t : Nat) (order : List Nat) (ht : 1 ≤ t) (ht32 : t < 2 ^ 32)
    (hmul : ub * t < 2 ^ 64) (hub : ub < 2 ^ 64 - 1) (hord : order.Perm (List.range t)) :
    global_sum ub t order = .ok ((List.range' 1 ub).sum % 2 ^ 64) := by
  have hall : ∀ tid ∈ order, tid < t := fun tid h =>
    List.mem_range.mp ((List.Perm.mem_iff hord).mp h)
  have hsum : (order.map (fun tid => (threadRange ub tid t).sum)).sum
      = (List.range' 1 ub).sum := by
    rw [List.Perm.sum_eq (List.Perm.map _ hord), ← flatMap_threadRange_all ub t ht ht32 hmul,
      List.flatMap_def, List.sum_flatten, List.map_map]
    rfl
  unfold global_sum
  rw [region_eq ub t ht32 hmul hub order 0 hall (by norm_num), hsum, Nat.zero_add]

end Reduction

namespace Scope

open Machine

theorem localLoop_eq_reduction (hi : Nat) :
    ∀ (fuel i s : Nat), localLoop hi fuel i s = Reduction.threadLoop hi fuel i s := by
  intro fuel
  induction fuel with
  | zero => intro i s; rfl
  | succ fuel ih =>
    intro i s
    simp only [localLoop, Reduction.threadLoop, ih]

theorem local_sum_eq_reduction (ub tid t : Nat) :
    local_sum ub tid t = Reduction.threadSum ub tid t :=
  localLoop_eq_reduction _ _ _ _

theorem region_eq_reduction (ub t : Nat) :
    ∀ (order : List Nat) (g : Nat), region ub t order g = Reduction.region ub t order g := by
  intro order
  induction order with
  | nil => intro g; rfl
  | cons tid rest ih =>
    intro g
    simp only [region, Reduction.region, local_sum_eq_reduction, ih]

theorem global_sum_eq_reduction (ub t : Nat) (order : List Nat) :
    global_sum ub t order = Reduction.global_sum ub t order :=
  region_eq_reduction ub t order 0

end Scope

namespace BugHuntSolution

open Machine

/-- C11. Sequence invariant: for every `unsigned int` count `n >= 6` the built
array is strictly increasing, `a[i] < a[i+1]` for every `i` with
`0 <= i < n - 1`, each cell holding an `unsigned long` without wraparound. -/
theorem built_strictly_increasing (n : Nat) (junk : Nat → Nat) (h6 : 6 ≤ n)
    (hn : n < 2 ^ 32) :
    ∃ a, build n (malloc n junk) = .ok a ∧ a.length = n ∧
      ∀ i, i + 1 < n → ∃ x y, a[i]? = some x ∧ a[i + 1]? = some y ∧ x < y ∧ y < 2 ^ 64 := by
  refine ⟨(List.range n).map tri,
    build_eq n (malloc n junk) (by omega) hn (malloc_length n junk), by simp, ?_⟩
  intro i hi
  exact ⟨tri i, tri (i + 1), getElem?_map_tri (by omega), getElem?_map_tri hi,
    tri_lt_succ i, tri_lt_ulong (by omega)⟩

theorem built_strictly_increasing_witness :
    (6 : Nat) ≤ 9 ∧ (9 : Nat) < 2 ^ 32 ∧
    ∃ a, build 9 (malloc 9 (fun k => 50 - k)) = .ok a ∧ a.length = 9 ∧
      ∀ i, i + 1 < 9 → ∃ x y, a[i]? = some x ∧ a[i + 1]? = some y ∧ x < y ∧ y < 2 ^ 64 :=
  ⟨by decide, by decide,
    built_strictly_increasing 9 (fun k => 50 - k) (by decide) (by decide)⟩

end BugHuntSolution

namespace BugHunt

open Machine

/-- C12. Serial logic of the exercise: run by one thread with iterations in
order, `bug_hunt.c` produces for every `unsigned int` count `n >= 6` the same
array, the same `sum`, `min`, `max` and `even_count`, and the same exit status
and report as `bug_hunt_solution.c` does under any schedule. -/
theorem serial_logic_matches_solution (n : Nat) (chunks : List (Nat × Nat))
    (junk junk2 : Nat → Nat) (h6 : 6 ≤ n) (hn : n < 2 ^ 32)
    (hs : BugHuntSolution.IsSplit n chunks) :
    ∃ a t r,
      build n (malloc n junk) = .ok a ∧
      BugHuntSolution.build n (malloc n junk2) = .ok a ∧
      reduce a n = .ok t ∧
      BugHuntSolution.reduceParallel a chunks = .ok t ∧
      main 3 (n : Int) junk = .ok (.EXIT_SUCCESS, .report r) ∧
      BugHuntSolution.main 3 (n : Int) chunks junk2 = .ok (.EXIT_SUCCESS, .report r) := by
  have hu : toUInt (n : Int) = n := BugHuntSolution.toUInt_natCast hn
  have hb := BugHuntSolution.build_eq n (malloc n junk) (by omega) hn (malloc_length n junk)
  rw [← build_eq_solution] at hb
  have hm := serial_main_of_valid (n : Int) junk (by rw [hu]; exact h6)
  rw [hu, serial_compute_eq n junk h6 hn] at hm
  have hm2 := BugHuntSolution.main_of_valid (n : Int) chunks junk2 (by rw [hu]; exact h6)
  rw [hu, BugHuntSolution.compute_eq n chunks junk2 h6 hn hs] at hm2
  exact ⟨_, _, _, hb,
    BugHuntSolution.build_eq n (malloc n junk2) (by omega) hn (malloc_length n junk2),
    reduce_built n (by omega) hn,
    BugHuntSolution.reduceParallel_built n chunks (by omega) hn hs, hm, hm2⟩

theorem serial_logic_matches_solution_witness :
    (6 : Nat) ≤ 6 ∧ (6 : Nat) < 2 ^ 32 ∧ BugHuntSolution.IsSplit 6 [(3, 6), (0, 3)] ∧
    ∃ a t r,
      build 6 (malloc 6 (fun _ => 9)) = .ok a ∧
      BugHuntSolution.build 6 (malloc 6 (fun k => k)) = .ok a ∧
      reduce a 6 = .ok t ∧
      BugHuntSolution.reduceParallel a [(3, 6), (0, 3)] = .ok t ∧
      main 3 ((6 : Nat) : Int) (fun _ => 9) = .ok (.EXIT_SUCCESS, .report r) ∧
      BugHuntSolution.main 3 ((6 : Nat) : Int) [(3, 6), (0, 3)] (fun k => k)
        = .ok (.EXIT_SUCCESS, .report r) :=
  ⟨by decide, by decide, by decide,
    serial_logic_matches_solution 6 [(3, 6), (0, 3)] (fun _ => 9) (fun k => k)
      (by decide) (by decide) (by decide)⟩

end BugHunt

namespace Reduction

open Machine

/-- C13, as stated, fails: for `upper_bound = 9223372036854775807` and three
threads the product `upper_bound * 3` wraps, thread 2 gets the empty range
`[6148914691236517205, 3074457345618258601]`, and the integer `upper_bound`
lies in no thread's range, in `reduction.c` and in `scope.c` alike. -/
theorem partition_wraps_with_three_threads :
    local_start 9223372036854775807 2 3 = 6148914691236517205 ∧
    local_end 9223372036854775807 2 3 = 3074457345618258601 ∧
    (∀ tid, tid < 3 →
      ¬ (local_start 9223372036854775807 tid 3 ≤ 9223372036854775807 ∧
         9223372036854775807 ≤ local_end 9223372036854775807 tid 3)) ∧
    (∀ tid, tid < 3 →
      ¬ (Scope.local_start 9223372036854775807 tid 3 ≤ 9223372036854775807 ∧
         9223372036854775807 ≤ Scope.local_end 9223372036854775807 tid 3)) := by
  decide

/-- C13, amended. For every thread count `1 <= t < 2^32` and every
`upper_bound` with `upper_bound * t < 2^64` (no product wraps), the inclusive
ranges `[local_start, local_end]` of `tid = 0 .. t-1`, in `reduction.c` and in
`scope.c`, are pairwise disjoint and listed one after the other are exactly
`1, 2, .., upper_bound`; if moreover `upper_bound < 2^64 - 1`, every thread's
loop ends and the per-thread sums merged in any order give the sum of
`1 .. upper_bound` modulo `2^64`. -/
theorem manual_partition (ub t : Nat) (order : List Nat) (ht : 1 ≤ t) (ht32 : t < 2 ^ 32)
    (hmul : ub * t < 2 ^ 64) (hord : order.Perm (List.range t)) :
    (List.range t).flatMap (fun tid => threadRange ub tid t) = List.range' 1 ub ∧
    ((List.range t).flatMap (fun tid => threadRange ub tid t)).Nodup ∧
    (∀ tid, Scope.local_start ub tid t = local_start ub tid t ∧
      Scope.local_end ub tid t = local_end ub tid t) ∧
    (ub < 2 ^ 64 - 1 →
      global_sum ub t order = .ok ((List.range' 1 ub).sum % 2 ^ 64) ∧
      Scope.global_sum ub t order = .ok ((List.range' 1 ub).sum % 2 ^ 64)) := by
  have hall := flatMap_threadRange_all ub t ht ht32 hmul
  refine ⟨hall, ?_, fun tid => ⟨rfl, rfl⟩, ?_⟩
  · rw [hall]
    exact List.nodup_range' 1 ub
  · intro hub
    have hg := merged_sum_eq ub t order ht ht32 hmul hub hord
    exact ⟨hg, by rw [Scope.global_sum_eq_reduction, hg]⟩

theorem manual_partition_witness :
    (1 : Nat) ≤ 3 ∧ (3 : Nat) < 2 ^ 32 ∧ 10 * 3 < 2 ^ 64 ∧
    List.Perm [2, 0, 1] (List.range 3) ∧
    ((List.range 3).flatMap (fun tid => threadRange 10 tid 3) = List.range' 1 10 ∧
    ((List.range 3).flatMap (fun tid => threadRange 10 tid 3)).Nodup ∧
    (∀ tid, Scope.local_start 10 tid 3 = local_start 10 tid 3 ∧
      Scope.local_end 10 tid 3 = local_end 10 tid 3) ∧
    (10 < 2 ^ 64 - 1 →
      global_sum 10 3 [2, 0, 1] = .ok ((List.range' 1 10).sum % 2 ^ 64) ∧
      Scope.global_sum 10 3 [2, 0, 1] = .ok ((List.range' 1 10).sum % 2 ^ 64))) :=
  ⟨by decide, by decide, by decide, by decide,
    manual_partition 10 3 [2, 0, 1] (by decide) (by decide) (by decide) (by decide)⟩

end Reduction
